import Mathlib

/-!
Verification of the randomness core of the cpp_prngs repository.

The development shallowly embeds the C++ sources `src/includes/detail.hpp`
and `src/includes/random.hpp` into Lean: `std::uint64_t` arithmetic becomes
`Nat` arithmetic with an explicit `% 2 ^ 64` wherever the C++ operation can
wrap, narrowing casts become `% 2 ^ width`, and the stateful `Random<E>`
wrapper becomes explicit state passing over an abstract engine modelled as a
stream of raw draws together with a stream position.
-/

namespace rnd

/-- Model of the C++ struct `rnd::detail::u128_parts` (detail.hpp, lines 13-16):
a 128-bit value represented by its low and high 64-bit halves. -/
structure u128_parts where
  lo : Nat
  hi : Nat
deriving Repr, DecidableEq

/-- Shallow embedding of `rnd::detail::mul64_to_128_parts` (detail.hpp, lines 18-42).
Every `std::uint64_t` operation carries an explicit `% 2 ^ 64`;
`static_cast<std::uint32_t>(a)` is `a % 2 ^ 32`; `x << k` and `x >> k` are
`x <<< k` (with wrap) and `x >>> k`. -/
def mul64_to_128_parts (a b : Nat) : u128_parts :=
  let a0 := a % 2 ^ 32
  let a1 := a >>> 32
  let b0 := b % 2 ^ 32
  let b1 := b >>> 32
  let p00 := (a0 * b0) % 2 ^ 64
  let p01 := (a0 * b1) % 2 ^ 64
  let p10 := (a1 * b0) % 2 ^ 64
  let p11 := (a1 * b1) % 2 ^ 64
  let mid := (p01 + p10) % 2 ^ 64
  let mid_carry := if mid < p01 then 2 ^ 32 else 0
  let mid_lo := ((mid % 2 ^ 32) <<< 32) % 2 ^ 64
  let mid_hi := mid >>> 32
  let lo := (p00 + mid_lo) % 2 ^ 64
  let lo_carry := if lo < p00 then 1 else 0
  let hi := (p11 + mid_hi + mid_carry + lo_carry) % 2 ^ 64
  ⟨lo, hi⟩

/-- Shallow embedding of `rnd::detail::shr128_to_u64<digits>` (detail.hpp, lines 45-53):
computes `(hi:lo) >> digits` for `digits` in `[1, 64]`, returning the low 64 bits.
The template parameter becomes an ordinary argument; the `static_assert`
bounds become hypotheses of the correctness lemmas. -/
def shr128_to_u64 (digits : Nat) (hi lo : Nat) : Nat :=
  if digits = 64 then hi
  else (lo >>> digits) ||| ((hi <<< (64 - digits)) % 2 ^ 64)

/-- Shallow embedding of `rnd::detail::mul_shift_u64<digits>` on the
`__uint128_t` path (detail.hpp, lines 62-65): the 128-bit product is exact
for 64-bit inputs, shifted right by `digits` and truncated to 64 bits. -/
def mul_shift_u64 (digits : Nat) (x bound : Nat) : Nat :=
  ((x * bound) >>> digits) % 2 ^ 64

/-- Shallow embedding of `rnd::detail::mul_shift_u64<digits>` on the MSVC
constexpr path (detail.hpp, lines 67-77): manual decomposition into 32-bit
partial products followed by the cross-word shift. -/
def mul_shift_u64_msvc (digits : Nat) (x bound : Nat) : Nat :=
  let p := mul64_to_128_parts x bound
  shr128_to_u64 digits p.hi p.lo

/-- Abstract model of a `RandomBitEngine` (concepts.hpp, random.hpp): the
engine is reduced to the stream of raw draws it will produce (`draws`)
together with its current position in that stream (`pos`); a call to the
engine returns `draws pos` and advances `pos` by one. `w` is the
declared output width of the engine, `value_bits = std::numeric_limits<result_type>::digits`
in `Random<E>`. -/
structure Engine where
  w : Nat
  draws : Nat → Nat
  pos : Nat

/-- The engine capability contract (spec section 4.1 and the static_asserts of
random.hpp, lines 66-68): an unsigned result type of width at most 64,
modelled as `1 ≤ w ≤ 64`, together with the full-range zero-based invariant:
every raw draw lies in `[0, 2 ^ w)`. -/
def Engine.wf (e : Engine) : Prop :=
  1 ≤ e.w ∧ e.w ≤ 64 ∧ ∀ i, e.draws i < 2 ^ e.w

/-- The raw word the next draw will return. -/
def Engine.raw (e : Engine) : Nat := e.draws e.pos

/-- The engine state after one draw. -/
def Engine.step (e : Engine) : Engine := ⟨e.w, e.draws, e.pos + 1⟩

namespace Random

/-- Embedding of `Random::next()` (random.hpp, lines 131-133): one raw draw,
advancing the engine one step. -/
def next (e : Engine) : Nat × Engine := (e.raw, e.step)

/-- Embedding of `Random::mask_low<T>(n)` (random.hpp, lines 32-39); `tw`
stands for `std::numeric_limits<T>::digits`. -/
def mask_low (tw n : Nat) : Nat :=
  if n = 0 then 0
  else if n ≥ tw then 2 ^ tw - 1
  else 2 ^ n - 1

/-- Embedding of `Random::take_high_bits<T>(x, n)` (random.hpp, lines 41-46):
`static_cast<T>(x >> (value_bits - n)) & mask_low<T>(n)`; the narrowing cast
to `T` is `% 2 ^ tw`. The asserted precondition `1 ≤ n ≤ value_bits` holds at
every call site, so the `Nat` truncated subtraction `w - n` coincides with
the C++ unsigned subtraction. -/
def take_high_bits (tw w x n : Nat) : Nat :=
  ((x >>> (w - n)) % 2 ^ tw) &&& mask_low tw n

/-- The `while (filled < n)` loop of `Random::gather_bits_runtime<T>(n)`
(random.hpp, lines 51-58), with an explicit fuel bounding the iteration
count. Each iteration fills at least one bit whenever `w ≥ 1`, so starting
from `filled = 0` a fuel of `n` is enough for the recursion to run until
`filled ≥ n`, exactly like the C++ loop. Returns the accumulator and the
stream position after the loop. -/
def gatherGo (tw w : Nat) (draws : Nat → Nat) (n : Nat) :
    Nat → Nat → Nat → Nat → Nat × Nat
  | 0, acc, _, pos => (acc, pos)
  | fuel + 1, acc, filled, pos =>
    if filled < n then
      let take := min w (n - filled)
      let chunk := take_high_bits tw w (draws pos) take
      gatherGo tw w draws n fuel ((acc ||| (chunk <<< filled)) % 2 ^ tw)
        (filled + take) (pos + 1)
    else (acc, pos)

/-- Embedding of `Random::gather_bits_runtime<T>(n)` (random.hpp, lines 48-61):
run the loop from `acc = 0`, `filled = 0`, then mask the accumulator to the
low `n` bits. -/
def gather_bits_runtime (tw n : Nat) (e : Engine) : Nat × Engine :=
  let r := gatherGo tw e.w e.draws n n 0 0 e.pos
  (r.1 &&& mask_low tw n, ⟨e.w, e.draws, r.2⟩)

/-- Embedding of the runtime `Random::bits<T>(n)` (random.hpp, lines 281-290);
the compile-time `bits<N, T>()` (lines 293-305) has the identical logic with
`n` known statically, so this definition covers both. -/
def bits (tw n : Nat) (e : Engine) : Nat × Engine :=
  if n ≤ e.w then
    (take_high_bits tw e.w (next e).1 n, (next e).2)
  else gather_bits_runtime tw n e

/-- Embedding of `Random::bits_as<T>()` (random.hpp, lines 308-312):
fill all `digits(T)` bits of `T`. -/
def bits_as (tw : Nat) (e : Engine) : Nat × Engine := bits tw tw e

/-- Embedding of the runtime `Random::next(bound)` (random.hpp, lines 143-156)
with its three `if constexpr` branches on `value_bits`; the value returned by
each branch is narrowed to `result_type`, i.e. taken `% 2 ^ w` (a no-op for
the `> 64` modulo fallback, which already yields a `result_type`). -/
def nextBounded (bound : Nat) (e : Engine) : Nat × Engine :=
  let raw_value := (next e).1
  let e1 := (next e).2
  if e.w ≤ 32 then
    ((((raw_value * bound) % 2 ^ 64) >>> e.w) % 2 ^ e.w, e1)
  else if e.w ≤ 64 then
    (mul_shift_u64 e.w raw_value bound % 2 ^ e.w, e1)
  else
    (if bound > 0 then raw_value % bound else bound, e1)

/-- Model of `std::countr_zero` on an unsigned value (used by
`Random::next<Bound>()` only on power-of-two bounds; the value 64 returned at
zero is unreachable there because of `static_assert(Bound > 0)`). -/
def countr_zero (n : Nat) : Nat :=
  if h : n = 0 then 64
  else if n % 2 = 1 then 0 else countr_zero (n / 2) + 1
termination_by n
decreasing_by omega

/-- Embedding of the compile-time `Random::next<Bound, T>()` with
`T = result_type` (random.hpp, lines 166-182): `Bound == 1` short-circuits
without drawing; a power-of-two `Bound` takes the bit-extraction fast path
with `countr_zero Bound` bits; any other bound calls the runtime overload. -/
def nextCT (Bound : Nat) (e : Engine) : Nat × Engine :=
  if Bound = 1 then (0, e)
  else if Bound &&& (Bound - 1) = 0 then
    bits e.w (countr_zero Bound) e
  else
    nextBounded Bound e

/-- Bit pattern of `F(1.0)` for the two supported IEEE-754 formats (sign 0,
biased exponent of 2^0, zero mantissa): `0x3F800000` when the carrier `UInt`
is 32 bits wide (`F = float`), `0x3FF0000000000000` when it is 64 bits wide
(`F = double`). -/
def onePattern (tw : Nat) : Nat :=
  if tw = 32 then 0x3F800000 else 0x3FF0000000000000

/-- IEEE-754 decoding, as an exact rational, of a bit pattern lying in the
binade `[1.0, 2.0)` (sign 0, exponent field of 1.0, mantissa
`p - onePattern tw`). This models `std::bit_cast<F>` on exactly the patterns
`normalized` produces; `mb` is the mantissa width (23 for `float`, 52 for
`double`, i.e. `std::numeric_limits<F>::digits - 1`). -/
def decodeBinade (mb tw p : Nat) : ℚ :=
  1 + ((p - onePattern tw : Nat) : ℚ) / 2 ^ mb

/-- Embedding of `Random::normalized<F>()` (random.hpp, lines 208-220) over
exact rationals: take `mb` random bits, OR them into the bit pattern of 1.0,
reinterpret, subtract 1.0. Both operands of the final subtraction lie in
`[1, 2)` and the difference is representable, so IEEE subtraction is exact
and real subtraction models it faithfully. -/
def normalized (mb tw : Nat) (e : Engine) : ℚ × Engine :=
  let m := (bits tw mb e).1
  let as_int := onePattern tw ||| m
  (decodeBinade mb tw as_int - 1, (bits tw mb e).2)

/-- Embedding of `Random::coin_flip()` (random.hpp, lines 229-231):
`bool(next() & 1)`. -/
def coin_flip (e : Engine) : Bool × Engine :=
  (((next e).1 &&& 1) != 0, (next e).2)

/-- Rotate left on a 64-bit word, `std::rotl` on `uint64_t`, for shifts in `(0, 64)`. -/
def rotl64 (x n : Nat) : Nat := ((x <<< n) % 2 ^ 64) ||| (x >>> (64 - n))

/-- Rotate right on a 64-bit word, `std::rotr` on `uint64_t`, for shifts in `(0, 64)`. -/
def rotr64 (x n : Nat) : Nat := (x >>> n) ||| ((x <<< (64 - n)) % 2 ^ 64)

/-- The inlined xnasam avalanche rounds of `Random::split()`
(random.hpp, lines 110-116), on 64-bit words. -/
def xnasam (s0 : Nat) : Nat :=
  let s1 := s0 ^^^ 0x9E3779B97F4A7C15
  let s2 := s1 ^^^ (rotr64 s1 25 ^^^ rotr64 s1 47)
  let s3 := (s2 * 0x9E6C63D0676A9A99) % 2 ^ 64
  let s4 := s3 ^^^ ((s3 >>> 23) ^^^ (s3 >>> 51))
  let s5 := (s4 * 0x9E6D62D06F6A9A9B) % 2 ^ 64
  s5 ^^^ ((s5 >>> 23) ^^^ (s5 >>> 51))

/-- Embedding of `Random::split()` (random.hpp, lines 104-119): pull two
full-width 64-bit values from the parent via `bits_as<std::uint64_t>()`, mix
them with a rotate, XOR and the domain-separation tag, avalanche the result.
The first component is the 64-bit seed the child `Random<E>{seed}` is
constructed from (the child is a pure function of it); the second is the
parent engine after the split. -/
def splitSeed (e : Engine) : Nat × Engine :=
  let a := (bits_as 64 e).1
  let e1 := (bits_as 64 e).2
  let b := (bits_as 64 e1).1
  let e2 := (bits_as 64 e1).2
  (xnasam ((a ^^^ rotl64 b 32) ^^^ 0x53504C49542D3031), e2)

end Random

/-- A concrete 64-bit engine used to instantiate the generic theorems. -/
def engine64 : Engine := ⟨64, fun i => (2 * i + 1) % 2 ^ 64, 0⟩

/-- A concrete 8-bit engine whose first draw is `0xFF` and whose later draws
are `0x00`, used to exhibit the fill order of the bit gatherer. -/
def gatherEngine : Engine := ⟨8, fun i => if i = 0 then 255 else 0, 0⟩

/-- A concrete 32-bit engine, used to exhibit the draw count of `split()` on
engines narrower than 64 bits. -/
def splitEngine32 : Engine := ⟨32, fun _ => 0, 0⟩

/-- The reassembled pair of 64-bit halves is exactly the 128-bit product:
`lo + 2 ^ 64 * hi = a * b`, and both halves are in range. -/
theorem mul64_to_128_parts_spec (a b : Nat) (ha : a < 2 ^ 64) (hb : b < 2 ^ 64) :
    (mul64_to_128_parts a b).lo + 2 ^ 64 * (mul64_to_128_parts a b).hi = a * b ∧
    (mul64_to_128_parts a b).lo < 2 ^ 64 ∧ (mul64_to_128_parts a b).hi < 2 ^ 64 := by
  have ha1 : a / 2 ^ 32 < 2 ^ 32 := by omega
  have hb1 : b / 2 ^ 32 < 2 ^ 32 := by omega
  have ha0 : a % 2 ^ 32 < 2 ^ 32 := Nat.mod_lt _ (by norm_num)
  have hb0 : b % 2 ^ 32 < 2 ^ 32 := Nat.mod_lt _ (by norm_num)
  have hkey : a * b =
      (a % 2 ^ 32) * (b % 2 ^ 32) + 2 ^ 32 * ((a % 2 ^ 32) * (b / 2 ^ 32)) +
      2 ^ 32 * ((a / 2 ^ 32) * (b % 2 ^ 32)) + 2 ^ 64 * ((a / 2 ^ 32) * (b / 2 ^ 32)) := by
    conv_lhs => rw [← Nat.div_add_mod a (2 ^ 32), ← Nat.div_add_mod b (2 ^ 32)]
    ring
  have bnd : ∀ u v : Nat, u < 2 ^ 32 → v < 2 ^ 32 → u * v ≤ (2 ^ 32 - 1) * (2 ^ 32 - 1) := by
    intro u v hu hv
    exact Nat.mul_le_mul (by omega) (by omega)
  have h00 := bnd _ _ ha0 hb0
  have h01 := bnd _ _ ha0 hb1
  have h10 := bnd _ _ ha1 hb0
  have h11 := bnd _ _ ha1 hb1
  simp only [mul64_to_128_parts, Nat.shiftLeft_eq, Nat.shiftRight_eq_div_pow]
  split_ifs <;> omega

/-- Correctness of the cross-word shift: for in-range halves,
`shr128_to_u64 digits hi lo` is the 128-bit value `(hi:lo)` shifted right by
`digits`, truncated to 64 bits. -/
theorem shr128_to_u64_spec (digits hi lo : Nat) (hd1 : 1 ≤ digits) (hd64 : digits ≤ 64)
    (hhi : hi < 2 ^ 64) (hlo : lo < 2 ^ 64) :
    shr128_to_u64 digits hi lo = ((lo + 2 ^ 64 * hi) / 2 ^ digits) % 2 ^ 64 := by
  by_cases h64 : digits = 64
  · subst h64
    have hred : shr128_to_u64 64 hi lo = hi := rfl
    rw [hred]
    omega
  · have hdlt : digits < 64 := by omega
    unfold shr128_to_u64
    simp only [if_neg h64, Nat.shiftLeft_eq, Nat.shiftRight_eq_div_pow]
    set d := digits with hdd
    set s := 64 - d with hss
    have hds : d + s = 64 := by omega
    have hpow : (2 : Nat) ^ 64 = 2 ^ d * 2 ^ s := by rw [← pow_add, hds]
    have hdpos : 0 < (2 : Nat) ^ d := Nat.pos_pow_of_pos d (by norm_num)
    have hspos : 0 < (2 : Nat) ^ s := Nat.pos_pow_of_pos s (by norm_num)
    have h1 : (hi * 2 ^ s) % 2 ^ 64 = (hi % 2 ^ d) * 2 ^ s := by
      rw [hpow, Nat.mul_mod_mul_right]
    have h2 : lo / 2 ^ d < 2 ^ s := by
      rw [Nat.div_lt_iff_lt_mul hdpos, mul_comm, ← hpow]
      exact hlo
    have h3 : (lo / 2 ^ d) ||| ((hi % 2 ^ d) * 2 ^ s) = 2 ^ s * (hi % 2 ^ d) + lo / 2 ^ d := by
      rw [Nat.lor_comm, mul_comm]
      exact (Nat.mul_add_lt_is_or h2 _).symm
    have h4 : (lo + 2 ^ 64 * hi) / 2 ^ d = lo / 2 ^ d + 2 ^ s * hi := by
      have hre : lo + 2 ^ 64 * hi = lo + 2 ^ d * (2 ^ s * hi) := by rw [hpow]; ring
      rw [hre, Nat.add_mul_div_left _ _ hdpos]
    have h5 : (lo / 2 ^ d + 2 ^ s * hi) % 2 ^ 64 = lo / 2 ^ d + 2 ^ s * (hi % 2 ^ d) := by
      have hhi2 : hi = 2 ^ d * (hi / 2 ^ d) + hi % 2 ^ d := (Nat.div_add_mod hi (2 ^ d)).symm
      have e1 : 2 ^ s * hi = 2 ^ s * (hi % 2 ^ d) + (hi / 2 ^ d) * 2 ^ 64 := by
        conv_lhs => rw [hhi2]
        rw [hpow]
        ring
      rw [e1, ← Nat.add_assoc, Nat.add_mul_mod_self_right]
      apply Nat.mod_eq_of_lt
      have hmod : hi % 2 ^ d < 2 ^ d := Nat.mod_lt hi hdpos
      have hmul : 2 ^ s * (hi % 2 ^ d) + 2 ^ s ≤ 2 ^ d * 2 ^ s := by
        calc 2 ^ s * (hi % 2 ^ d) + 2 ^ s
            = (hi % 2 ^ d + 1) * 2 ^ s := by ring
          _ ≤ 2 ^ d * 2 ^ s := Nat.mul_le_mul_right _ (by omega)
      rw [hpow]
      omega
    rw [h1, h3, h4, h5]
    omega

/-- The two compilation paths of `mul_shift_u64` compute the mathematical
`floor(x * bound / 2 ^ digits)` truncated to 64 bits. -/
theorem mul_shift_u64_msvc_eq (digits x bound : Nat) (hd1 : 1 ≤ digits) (hd64 : digits ≤ 64)
    (hx : x < 2 ^ 64) (hb : bound < 2 ^ 64) :
    mul_shift_u64_msvc digits x bound = (x * bound / 2 ^ digits) % 2 ^ 64 := by
  obtain ⟨hsum, hlo, hhi⟩ := mul64_to_128_parts_spec x bound hx hb
  unfold mul_shift_u64_msvc
  rw [shr128_to_u64_spec digits _ _ hd1 hd64 hhi hlo, hsum]

/-- The native path is definitionally the truncated quotient. -/
theorem mul_shift_u64_eq (digits x bound : Nat) :
    mul_shift_u64 digits x bound = (x * bound / 2 ^ digits) % 2 ^ 64 := by
  unfold mul_shift_u64
  rw [Nat.shiftRight_eq_div_pow]

/-- C1: for every unsigned 64-bit `x` and `bound` and every `digits` in
`[1, 64]`, `mul_shift_u64<digits>(x, bound)` — computed on the
manual-decomposition path, where the 128-bit product is reassembled from
32-bit partial products with explicit carries, so no intermediate overflow
corrupts it — equals `floor(x * bound / 2 ^ digits)` truncated to 64 bits;
and for `digits`-bit inputs (any `x, bound < 2 ^ digits`, which includes
`bound = 2 ^ digits - 1` and `x = 0`) the result is the exact quotient with
no truncation at all. -/
theorem C1_mul_shift_u64_exact (digits x bound : Nat)
    (hd1 : 1 ≤ digits) (hd64 : digits ≤ 64) (hx : x < 2 ^ 64) (hb : bound < 2 ^ 64) :
    mul_shift_u64_msvc digits x bound = x * bound / 2 ^ digits % 2 ^ 64 ∧
    (x < 2 ^ digits → bound < 2 ^ digits →
      mul_shift_u64_msvc digits x bound = x * bound / 2 ^ digits) := by
  have h1 := mul_shift_u64_msvc_eq digits x bound hd1 hd64 hx hb
  refine ⟨h1, fun hxd hbd => ?_⟩
  rw [h1]
  apply Nat.mod_eq_of_lt
  have hq : x * bound / 2 ^ digits < 2 ^ digits := by
    rw [Nat.div_lt_iff_lt_mul (Nat.pos_pow_of_pos digits (by norm_num))]
    exact mul_lt_mul'' hxd hbd (Nat.zero_le _) (Nat.zero_le _)
  exact lt_of_lt_of_le hq (Nat.pow_le_pow_right (by norm_num) hd64)

/-- Witness for C1 at `digits = 32`, `x = bound = 2 ^ 32 - 1` (the maximal
width-bit pair). -/
theorem C1_witness :
    (2 ^ 32 - 1 : Nat) < 2 ^ 64 ∧
    (mul_shift_u64_msvc 32 (2 ^ 32 - 1) (2 ^ 32 - 1) =
       (2 ^ 32 - 1) * (2 ^ 32 - 1) / 2 ^ 32 % 2 ^ 64 ∧
     ((2 ^ 32 - 1 : Nat) < 2 ^ 32 → (2 ^ 32 - 1 : Nat) < 2 ^ 32 →
       mul_shift_u64_msvc 32 (2 ^ 32 - 1) (2 ^ 32 - 1) =
         (2 ^ 32 - 1) * (2 ^ 32 - 1) / 2 ^ 32)) :=
  ⟨by norm_num,
   C1_mul_shift_u64_exact 32 (2 ^ 32 - 1) (2 ^ 32 - 1)
     (by norm_num) (by norm_num) (by norm_num) (by norm_num)⟩

/-- C2: for every pair of 64-bit inputs and every `digits` in `[1, 64]`, the
manual-decomposition path (`mul64_to_128_parts` followed by
`shr128_to_u64<digits>`) and the native double-width path (the 128-bit
multiply shifted right by `digits`) produce bit-for-bit identical 64-bit
results. -/
theorem C2_paths_agree (digits x bound : Nat)
    (hd1 : 1 ≤ digits) (hd64 : digits ≤ 64) (hx : x < 2 ^ 64) (hb : bound < 2 ^ 64) :
    mul_shift_u64_msvc digits x bound = mul_shift_u64 digits x bound := by
  rw [mul_shift_u64_msvc_eq digits x bound hd1 hd64 hx hb, mul_shift_u64_eq]

/-- Witness for C2 at `digits = 1`, `x = bound = 2 ^ 64 - 1` (both operands
maximal). -/
theorem C2_witness :
    (2 ^ 64 - 1 : Nat) < 2 ^ 64 ∧
    mul_shift_u64_msvc 1 (2 ^ 64 - 1) (2 ^ 64 - 1) =
      mul_shift_u64 1 (2 ^ 64 - 1) (2 ^ 64 - 1) :=
  ⟨by norm_num,
   C2_paths_agree 1 (2 ^ 64 - 1) (2 ^ 64 - 1)
     (by norm_num) (by norm_num) (by norm_num) (by norm_num)⟩

/-- Masking with `mask_low tw n` is reduction modulo `2 ^ n`, for `1 ≤ n ≤ tw`. -/
theorem and_mask_low (tw n a : Nat) (h1 : 1 ≤ n) (h2 : n ≤ tw) :
    a &&& Random.mask_low tw n = a % 2 ^ n := by
  unfold Random.mask_low
  rcases Nat.lt_or_ge n tw with h | h
  · rw [if_neg (by omega), if_neg (by omega), Nat.and_pow_two_sub_one_eq_mod]
  · have hnt : n = tw := by omega
    subst hnt
    rw [if_neg (by omega), if_pos (le_refl n), Nat.and_pow_two_sub_one_eq_mod]

/-- Under its asserted preconditions, `take_high_bits` returns exactly the
high `n` bits of the draw, `x >> (w - n)`, and that value is below `2 ^ n`. -/
theorem take_high_bits_eq (tw w x n : Nat) (hx : x < 2 ^ w)
    (h1 : 1 ≤ n) (hnw : n ≤ w) (hnt : n ≤ tw) :
    Random.take_high_bits tw w x n = x >>> (w - n) ∧ x >>> (w - n) < 2 ^ n := by
  have hlt : x >>> (w - n) < 2 ^ n := by
    rw [Nat.shiftRight_eq_div_pow]
    rw [Nat.div_lt_iff_lt_mul (Nat.pos_pow_of_pos _ (by norm_num))]
    calc x < 2 ^ w := hx
      _ = 2 ^ n * 2 ^ (w - n) := by rw [← pow_add]; congr 1; omega
  refine ⟨?_, hlt⟩
  unfold Random.take_high_bits
  rw [Nat.mod_eq_of_lt (lt_of_lt_of_le hlt (Nat.pow_le_pow_right (by norm_num) hnt)),
    and_mask_low tw n _ h1 hnt, Nat.mod_eq_of_lt hlt]

/-- Reduction modulo a power of two distributes over bitwise or. -/
theorem lor_mod_two_pow (a b k : Nat) :
    (a ||| b) % 2 ^ k = (a % 2 ^ k) ||| (b % 2 ^ k) := by
  apply Nat.eq_of_testBit_eq
  intro i
  simp only [Nat.testBit_mod_two_pow, Nat.testBit_lor]
  by_cases h : i < k <;> simp [h]

/-- The gather loop advances the stream position by exactly
`ceil((n - filled) / w)` draws, whenever the fuel covers the remaining bits. -/
theorem gatherGo_pos (tw w : Nat) (draws : Nat → Nat) (n : Nat) (hw : 1 ≤ w) :
    ∀ fuel acc filled pos, n ≤ filled + fuel →
      (Random.gatherGo tw w draws n fuel acc filled pos).2 =
        pos + (n - filled + w - 1) / w := by
  intro fuel
  induction fuel with
  | zero =>
    intro acc filled pos h
    have hnf : n - filled = 0 := by omega
    simp only [Random.gatherGo, hnf]
    rw [Nat.div_eq_of_lt (by omega)]
    omega
  | succ f ih =>
    intro acc filled pos h
    simp only [Random.gatherGo]
    by_cases hf : filled < n
    · rw [if_pos hf]
      have hmin : 1 ≤ min w (n - filled) := by omega
      rw [ih _ _ _ (by omega)]
      have hr1 : 1 ≤ n - filled := by omega
      rcases le_or_lt (n - filled) w with hcase | hcase
      · have hm : min w (n - filled) = n - filled := by omega
        rw [hm]
        have hz : n - (filled + (n - filled)) = 0 := by omega
        rw [hz]
        rw [Nat.div_eq_of_lt (by omega)]
        have hone : (n - filled + w - 1) / w = 1 := by
          apply Nat.div_eq_of_lt_le
          · omega
          · have : (1 + 1) * w = w + w := by ring
            omega
        rw [hone]
      · have hm : min w (n - filled) = w := by omega
        rw [hm]
        have hs1 : n - (filled + w) + w - 1 = n - filled - 1 := by omega
        have hs2 : n - filled + w - 1 = (n - filled - 1) + w := by omega
        rw [hs1, hs2, Nat.add_div_right _ (by omega)]
        omega
    · rw [if_neg hf]
      have hnf : n - filled = 0 := by omega
      rw [hnf]
      rw [Nat.div_eq_of_lt (by omega)]
      show pos = pos + 0
      omega

/-- Once at least `w` bits are filled, the gather loop never changes the low
`w` bits of the accumulator: every later chunk is ORed in at position
`filled ≥ w`. -/
theorem gatherGo_low (tw w : Nat) (draws : Nat → Nat) (n : Nat)
    (hw : 1 ≤ w) (hwt : w ≤ tw) :
    ∀ fuel acc filled pos, w ≤ filled →
      (Random.gatherGo tw w draws n fuel acc filled pos).1 % 2 ^ w = acc % 2 ^ w := by
  intro fuel
  induction fuel with
  | zero =>
    intro acc filled pos hfil
    simp only [Random.gatherGo]
  | succ f ih =>
    intro acc filled pos hfil
    simp only [Random.gatherGo]
    by_cases hf : filled < n
    · rw [if_pos hf]
      rw [ih _ _ _ (by omega)]
      have hdvd : (2 : Nat) ^ w ∣ 2 ^ tw := pow_dvd_pow 2 hwt
      rw [Nat.mod_mod_of_dvd _ hdvd, lor_mod_two_pow]
      have hsh : (Random.take_high_bits tw w (draws pos) (min w (n - filled)) <<< filled)
          % 2 ^ w = 0 := by
        rw [Nat.shiftLeft_eq]
        have hsplit : (2 : Nat) ^ filled = 2 ^ w * 2 ^ (filled - w) := by
          rw [← pow_add]
          congr 1
          omega
        rw [hsplit, ← mul_assoc, mul_comm _ (2 ^ w), mul_assoc, mul_comm (2 ^ w),
          Nat.mul_mod_left]
      rw [hsh, Nat.or_zero]
    · rw [if_neg hf]

/-- On both of its branches, `bits` advances the engine by exactly
`ceil(n / w)` draws. -/
theorem bits_state (tw n : Nat) (e : Engine) (hw : 1 ≤ e.w) (h1 : 1 ≤ n) :
    (Random.bits tw n e).2 = ⟨e.w, e.draws, e.pos + (n + e.w - 1) / e.w⟩ := by
  unfold Random.bits
  by_cases hle : n ≤ e.w
  · rw [if_pos hle]
    have hone : (n + e.w - 1) / e.w = 1 := by
      apply Nat.div_eq_of_lt_le <;> omega
    rw [hone]
    rfl
  · rw [if_neg hle]
    have hpos := gatherGo_pos tw e.w e.draws n hw n 0 0 e.pos (by omega)
    show Engine.mk e.w e.draws ((Random.gatherGo tw e.w e.draws n n 0 0 e.pos).2) =
      Engine.mk e.w e.draws (e.pos + (n + e.w - 1) / e.w)
    rw [hpos]
    norm_num

/-- On every engine within the contract and every representable positive
bound, the runtime bounded draw computes `floor(raw * bound / 2 ^ w)` and
advances the engine exactly one step. -/
theorem nextBounded_spec (bound : Nat) (e : Engine) (hwf : e.wf)
    (hb0 : 0 < bound) (hbw : bound ≤ 2 ^ e.w) :
    Random.nextBounded bound e = (e.raw * bound / 2 ^ e.w, e.step) := by
  obtain ⟨hw1, hw64, hdraw⟩ := hwf
  have hx : e.raw < 2 ^ e.w := hdraw e.pos
  have hqlt : e.raw * bound / 2 ^ e.w < bound := by
    rw [Nat.div_lt_iff_lt_mul (Nat.pos_pow_of_pos _ (by norm_num))]
    calc e.raw * bound < 2 ^ e.w * bound := mul_lt_mul_of_pos_right hx hb0
      _ = bound * 2 ^ e.w := mul_comm _ _
  have hq2 : e.raw * bound / 2 ^ e.w < 2 ^ e.w := lt_of_lt_of_le hqlt hbw
  simp only [Random.nextBounded, Random.next]
  by_cases h32 : e.w ≤ 32
  · rw [if_pos h32]
    have hprod : e.raw * bound < 2 ^ 64 := by
      calc e.raw * bound < 2 ^ e.w * bound := mul_lt_mul_of_pos_right hx hb0
        _ ≤ 2 ^ e.w * 2 ^ e.w := Nat.mul_le_mul_left _ hbw
        _ = 2 ^ (e.w + e.w) := (pow_add 2 e.w e.w).symm
        _ ≤ 2 ^ 64 := Nat.pow_le_pow_right (by norm_num) (by omega)
    rw [Nat.mod_eq_of_lt hprod, Nat.shiftRight_eq_div_pow, Nat.mod_eq_of_lt hq2]
  · rw [if_neg h32, if_pos hw64, mul_shift_u64_eq]
    rw [Nat.mod_eq_of_lt
      (lt_of_lt_of_le hq2 (Nat.pow_le_pow_right (by norm_num) hw64))]
    rw [Nat.mod_eq_of_lt hq2]

/-- On a power of two, `countr_zero` recovers the exponent. -/
theorem countr_zero_two_pow (k : Nat) : Random.countr_zero (2 ^ k) = k := by
  induction k with
  | zero =>
    rw [Random.countr_zero]
    norm_num
  | succ m ih =>
    rw [Random.countr_zero]
    have h0 : (2 : Nat) ^ (m + 1) ≠ 0 := by positivity
    have h2 : (2 : Nat) ^ (m + 1) % 2 = 0 := by
      rw [pow_succ]
      exact Nat.mul_mod_left _ _
    rw [dif_neg h0, if_neg (by omega)]
    rw [pow_succ, Nat.mul_div_cancel _ (by norm_num), ih]

/-- The value and state of `normalized`, for any format whose pattern of 1.0
has its low `mb` mantissa bits clear (`onePattern tw = 2 ^ mb * c`). -/
theorem normalized_spec (e : Engine) (mb tw c : Nat)
    (hx : e.raw < 2 ^ e.w)
    (hmb1 : 1 ≤ mb) (hmw : mb ≤ e.w) (hmt : mb ≤ tw)
    (hc : Random.onePattern tw = 2 ^ mb * c) :
    (Random.normalized mb tw e).1 = ((e.raw >>> (e.w - mb) : Nat) : ℚ) / 2 ^ mb ∧
    (Random.normalized mb tw e).2 = e.step := by
  obtain ⟨hth, hlt⟩ := take_high_bits_eq tw e.w e.raw mb hx hmb1 hmw hmt
  have hbits : Random.bits tw mb e = (e.raw >>> (e.w - mb), e.step) := by
    unfold Random.bits
    rw [if_pos hmw]
    simp only [Random.next]
    rw [hth]
  simp only [Random.normalized, hbits]
  constructor
  · have hor : Random.onePattern tw ||| (e.raw >>> (e.w - mb)) =
        2 ^ mb * c + e.raw >>> (e.w - mb) := by
      rw [hc]
      exact (Nat.mul_add_lt_is_or hlt c).symm
    rw [hor]
    unfold Random.decodeBinade
    rw [hc]
    have hsub : 2 ^ mb * c + e.raw >>> (e.w - mb) - 2 ^ mb * c = e.raw >>> (e.w - mb) := by
      omega
    rw [hsub]
    ring
  · trivial

/-- engine64 satisfies the engine contract. -/
theorem engine64_wf : engine64.wf :=
  ⟨by decide, by decide, fun i => Nat.mod_lt _ (by norm_num)⟩

/-- gatherEngine satisfies the engine contract. -/
theorem gatherEngine_wf : gatherEngine.wf := by
  refine ⟨by decide, by decide, fun i => ?_⟩
  show (if i = 0 then 255 else 0) < 2 ^ 8
  split <;> norm_num

/-- C3: for every engine satisfying the contract (raw draws uniformly in the
full zero-based range `[0, 2 ^ value_bits)`), every engine state, and every
`bound > 0` representable in the result type of the engine, `next(bound)` maps the
raw draw `x` to `floor(x * bound / 2 ^ value_bits)` and therefore returns a
value strictly less than `bound`. -/
theorem C3_nextBounded_lt (e : Engine) (bound : Nat) (hwf : e.wf)
    (hb0 : 0 < bound) (hbw : bound < 2 ^ e.w) :
    (Random.nextBounded bound e).1 = e.raw * bound / 2 ^ e.w ∧
    (Random.nextBounded bound e).1 < bound := by
  rw [nextBounded_spec bound e hwf hb0 (le_of_lt hbw)]
  obtain ⟨hw1, hw64, hdraw⟩ := hwf
  have hx : e.raw < 2 ^ e.w := hdraw e.pos
  refine ⟨rfl, ?_⟩
  rw [Nat.div_lt_iff_lt_mul (Nat.pos_pow_of_pos _ (by norm_num))]
  calc e.raw * bound < 2 ^ e.w * bound := mul_lt_mul_of_pos_right hx hb0
    _ = bound * 2 ^ e.w := mul_comm _ _

/-- Witness for C3 on the concrete 64-bit engine with `bound = 10`. -/
theorem C3_witness :
    Engine.wf engine64 ∧ (0 : Nat) < 10 ∧ (10 : Nat) < 2 ^ 64 ∧
    (Random.nextBounded 10 engine64).1 < 10 :=
  ⟨engine64_wf, by norm_num, by norm_num,
   (C3_nextBounded_lt engine64 10 engine64_wf (by norm_num) (by decide)).2⟩

/-- C4: for every engine state and every `n` with `1 ≤ n ≤ value_bits` and
`n` at most the width of the output type, `bits(n)` consumes exactly one raw
draw `x` (the engine state advances one step) and returns the high `n` bits
`x >> (value_bits - n)`, which is strictly less than `2 ^ n`. -/
theorem C4_bits_high (e : Engine) (tw n : Nat) (hwf : e.wf)
    (h1 : 1 ≤ n) (hnw : n ≤ e.w) (hnt : n ≤ tw) :
    Random.bits tw n e = (e.raw >>> (e.w - n), e.step) ∧
    e.raw >>> (e.w - n) < 2 ^ n := by
  obtain ⟨hw1, hw64, hdraw⟩ := hwf
  obtain ⟨heq, hlt⟩ := take_high_bits_eq tw e.w e.raw n (hdraw e.pos) h1 hnw hnt
  refine ⟨?_, hlt⟩
  unfold Random.bits
  rw [if_pos hnw]
  simp only [Random.next]
  rw [heq]

/-- Witness for C4 on the concrete 64-bit engine with `n = 8`, `tw = 64`. -/
theorem C4_witness :
    Engine.wf engine64 ∧
    (Random.bits 64 8 engine64 = (engine64.raw >>> (engine64.w - 8), engine64.step) ∧
     engine64.raw >>> (engine64.w - 8) < 2 ^ 8) :=
  ⟨engine64_wf,
   C4_bits_high engine64 64 8 engine64_wf (by norm_num) (by decide) (by norm_num)⟩

/-- C5 counterexample: gathering 16 bits from the 8-bit engine whose first
draw is `0xFF` and second draw is `0x00` yields `0x00FF`: the bits of the first draw
occupy the LOWEST 8 positions of the result (`result % 2 ^ 8` is the
first draw) and the highest 8 positions are zero, refuting the claimed
high-to-low fill direction (which would require `result >> 8 = 0xFF`). -/
theorem C5_counterexample :
    (Random.bits 16 16 gatherEngine).1 = 255 ∧
    (Random.bits 16 16 gatherEngine).1 >>> 8 ≠ gatherEngine.raw ∧
    (Random.bits 16 16 gatherEngine).1 % 2 ^ 8 = gatherEngine.raw := by
  refine ⟨?_, ?_, ?_⟩ <;> decide

/-- C5 amended: for every `n` greater than the engine width (and at most the
width of the output type), `bits(n)` repeatedly draws, takes the high bits of each
draw, and ORs them into a bit accumulator filled LOW-to-high from successive
draws (the bits of the first draw occupy the lowest positions of the result),
drawing `ceil(n / w)` times until `n` bits have been filled; the final result
is masked to exactly `n` bits, so `bits(n) < 2 ^ n`. -/
theorem C5_gather_low_to_high (e : Engine) (tw n : Nat) (hwf : e.wf)
    (hgt : e.w < n) (hnt : n ≤ tw) :
    (Random.bits tw n e).1 < 2 ^ n ∧
    (Random.bits tw n e).1 % 2 ^ e.w = e.raw ∧
    (Random.bits tw n e).2 = ⟨e.w, e.draws, e.pos + (n + e.w - 1) / e.w⟩ := by
  obtain ⟨hw1, hw64, hdraw⟩ := hwf
  have hx : e.raw < 2 ^ e.w := hdraw e.pos
  have hwt : e.w ≤ tw := by omega
  have hn1 : 1 ≤ n := by omega
  obtain ⟨f, rfl⟩ : ∃ f, n = f + 1 := ⟨n - 1, by omega⟩
  have hbranch : Random.bits tw (f + 1) e = Random.gather_bits_runtime tw (f + 1) e := by
    unfold Random.bits
    rw [if_neg (by omega)]
  have hval : (Random.gather_bits_runtime tw (f + 1) e).1 =
      (Random.gatherGo tw e.w e.draws (f + 1) (f + 1) 0 0 e.pos).1 % 2 ^ (f + 1) := by
    simp only [Random.gather_bits_runtime]
    rw [and_mask_low tw (f + 1) _ (by omega) hnt]
  have hfirst : (Random.gatherGo tw e.w e.draws (f + 1) (f + 1) 0 0 e.pos).1 % 2 ^ e.w
      = e.raw := by
    simp only [Random.gatherGo]
    rw [if_pos (by omega : (0 : Nat) < f + 1)]
    have hmin : min e.w (f + 1 - 0) = e.w := by omega
    rw [hmin]
    obtain ⟨hth, _⟩ := take_high_bits_eq tw e.w (e.draws e.pos) e.w hx hw1 (le_refl _) hwt
    rw [hth, Nat.sub_self, Nat.shiftRight_zero, Nat.shiftLeft_zero, Nat.zero_or]
    rw [Nat.mod_eq_of_lt
      (lt_of_lt_of_le (hdraw e.pos) (Nat.pow_le_pow_right (by norm_num) hwt))]
    rw [gatherGo_low tw e.w e.draws (f + 1) hw1 hwt f _ (0 + e.w) (e.pos + 1) (by omega)]
    exact Nat.mod_eq_of_lt (hdraw e.pos)
  refine ⟨?_, ?_, ?_⟩
  · rw [hbranch, hval]
    exact Nat.mod_lt _ (Nat.pos_pow_of_pos _ (by norm_num))
  · rw [hbranch, hval]
    rw [Nat.mod_mod_of_dvd _ (pow_dvd_pow 2 (by omega))]
    exact hfirst
  · exact bits_state tw (f + 1) e hw1 (by omega)

/-- Witness for C5 (amended) on the concrete 8-bit engine with `n = 16`,
`tw = 16`: two draws are consumed and the first draw sits in the low byte. -/
theorem C5_witness :
    Engine.wf gatherEngine ∧
    ((Random.bits 16 16 gatherEngine).1 < 2 ^ 16 ∧
     (Random.bits 16 16 gatherEngine).1 % 2 ^ gatherEngine.w = gatherEngine.raw ∧
     (Random.bits 16 16 gatherEngine).2 =
       ⟨gatherEngine.w, gatherEngine.draws, gatherEngine.pos + (16 + gatherEngine.w - 1) / gatherEngine.w⟩) :=
  ⟨gatherEngine_wf,
   C5_gather_low_to_high gatherEngine 16 16 gatherEngine_wf (by decide) (by norm_num)⟩

/-- C6: for every engine state and every compile-time power-of-two bound
`2 ^ k` with `2 ≤ 2 ^ k` (i.e. `k ≥ 1`) and `k ≤ value_bits`, the fast
bit-extraction path `next<Bound>()` and the general multiply-shift path
`next(Bound)`, started from the same engine state, return the same value and
leave the engine in the same state. -/
theorem C6_pow2_fast_path (e : Engine) (k : Nat) (hwf : e.wf)
    (hk1 : 1 ≤ k) (hkw : k ≤ e.w) :
    Random.nextCT (2 ^ k) e = Random.nextBounded (2 ^ k) e := by
  obtain ⟨hw1, hw64, hdraw⟩ := hwf
  have hx : e.raw < 2 ^ e.w := hdraw e.pos
  have hne1 : (2 : Nat) ^ k ≠ 1 := by
    have h2 : 1 < (2 : Nat) ^ k := Nat.one_lt_two_pow (by omega)
    omega
  have hpow2 : (2 : Nat) ^ k &&& (2 ^ k - 1) = 0 := by
    rw [Nat.and_pow_two_sub_one_eq_mod, Nat.mod_self]
  unfold Random.nextCT
  rw [if_neg hne1, if_pos hpow2, countr_zero_two_pow]
  rw [nextBounded_spec _ e ⟨hw1, hw64, hdraw⟩ (Nat.pos_pow_of_pos _ (by norm_num))
    (Nat.pow_le_pow_right (by norm_num) hkw)]
  unfold Random.bits
  rw [if_pos hkw]
  simp only [Random.next]
  obtain ⟨hth, hlt⟩ := take_high_bits_eq e.w e.w e.raw k hx hk1 hkw hkw
  rw [hth]
  have hdiv : e.raw >>> (e.w - k) = e.raw * 2 ^ k / 2 ^ e.w := by
    rw [Nat.shiftRight_eq_div_pow]
    have hsplit : (2 : Nat) ^ e.w = 2 ^ (e.w - k) * 2 ^ k := by
      rw [← pow_add]
      congr 1
      omega
    rw [hsplit, Nat.mul_div_mul_right _ _ (Nat.pos_pow_of_pos _ (by norm_num))]
  rw [hdiv]

/-- Witness for C6 on the concrete 64-bit engine with `Bound = 2 ^ 3 = 8`. -/
theorem C6_witness :
    Engine.wf engine64 ∧
    Random.nextCT (2 ^ 3) engine64 = Random.nextBounded (2 ^ 3) engine64 :=
  ⟨engine64_wf, C6_pow2_fast_path engine64 3 engine64_wf (by norm_num) (by decide)⟩

/-- C7: for every engine state, the compile-time call `next<1>()` returns 0
without drawing (the engine state is unchanged), whereas the runtime call
`next(1)` consumes exactly one draw (the engine advances one step) and
returns 0. -/
theorem C7_bound_one (e : Engine) (hwf : e.wf) :
    Random.nextCT 1 e = (0, e) ∧ Random.nextBounded 1 e = (0, e.step) := by
  constructor
  · unfold Random.nextCT
    rw [if_pos rfl]
  · rw [nextBounded_spec 1 e hwf (by norm_num) Nat.one_le_two_pow]
    obtain ⟨hw1, hw64, hdraw⟩ := hwf
    have hx : e.raw < 2 ^ e.w := hdraw e.pos
    rw [mul_one, Nat.div_eq_of_lt hx]

/-- Witness for C7 on the concrete 64-bit engine. -/
theorem C7_witness :
    Engine.wf engine64 ∧
    (Random.nextCT 1 engine64 = (0, engine64) ∧
     Random.nextBounded 1 engine64 = (0, engine64.step)) :=
  ⟨engine64_wf, C7_bound_one engine64 engine64_wf⟩

/-- C8: for every engine state and both IEEE-754 targets (`float`:
23 mantissa bits carried in 32; `double`: 52 mantissa bits carried in 64),
with the engine at least as wide as the mantissa, `normalized<F>()` takes
exactly `mantissa_bits` random bits `m` (the high bits of one draw), ORs them into
the bit pattern of 1.0, reinterprets and subtracts 1.0, yielding exactly
`m / 2 ^ mantissa_bits`, a finite rational in `[0, 1)`. -/
theorem C8_normalized (e : Engine) (mb tw : Nat) (hwf : e.wf)
    (hfmt : (mb = 23 ∧ tw = 32) ∨ (mb = 52 ∧ tw = 64)) (hmw : mb ≤ e.w) :
    (Random.normalized mb tw e).1 = ((e.raw >>> (e.w - mb) : Nat) : ℚ) / 2 ^ mb ∧
    0 ≤ (Random.normalized mb tw e).1 ∧
    (Random.normalized mb tw e).1 < 1 ∧
    (Random.normalized mb tw e).2 = e.step := by
  obtain ⟨hw1, hw64, hdraw⟩ := hwf
  have hx : e.raw < 2 ^ e.w := hdraw e.pos
  have hmb1 : 1 ≤ mb := by rcases hfmt with ⟨h, _⟩ | ⟨h, _⟩ <;> omega
  have hmt : mb ≤ tw := by rcases hfmt with ⟨h1, h2⟩ | ⟨h1, h2⟩ <;> omega
  have hc : ∃ c, Random.onePattern tw = 2 ^ mb * c := by
    rcases hfmt with ⟨h1, h2⟩ | ⟨h1, h2⟩ <;> subst h1 <;> subst h2
    · exact ⟨127, by norm_num [Random.onePattern]⟩
    · exact ⟨1023, by norm_num [Random.onePattern]⟩
  obtain ⟨c, hc⟩ := hc
  obtain ⟨hv, hs⟩ := normalized_spec e mb tw c hx hmb1 hmw hmt hc
  obtain ⟨hth, hlt⟩ := take_high_bits_eq tw e.w e.raw mb hx hmb1 hmw hmt
  refine ⟨hv, ?_, ?_, hs⟩
  · rw [hv]
    positivity
  · rw [hv]
    rw [div_lt_one (by positivity)]
    calc ((e.raw >>> (e.w - mb) : Nat) : ℚ) < ((2 ^ mb : Nat) : ℚ) := by
          exact_mod_cast hlt
      _ = (2 : ℚ) ^ mb := by push_cast; ring

/-- Witness for C8 on the concrete 64-bit engine for the double-precision
target (`mb = 52`, `tw = 64`). -/
theorem C8_witness :
    Engine.wf engine64 ∧
    ((Random.normalized 52 64 engine64).1 =
       ((engine64.raw >>> (engine64.w - 52) : Nat) : ℚ) / 2 ^ 52 ∧
     0 ≤ (Random.normalized 52 64 engine64).1 ∧
     (Random.normalized 52 64 engine64).1 < 1 ∧
     (Random.normalized 52 64 engine64).2 = engine64.step) :=
  ⟨engine64_wf,
   C8_normalized engine64 52 64 engine64_wf (Or.inr ⟨rfl, rfl⟩) (by decide)⟩

/-- C9 counterexample: splitting from a 32-bit engine advances the parent
stream position by 4 raw draws (each of the two 64-bit gathers consumes two
32-bit draws), not by 2 as the claim demands for every output width. -/
theorem C9_counterexample :
    Engine.wf splitEngine32 ∧
    (Random.splitSeed splitEngine32).2.pos = splitEngine32.pos + 4 ∧
    (Random.splitSeed splitEngine32).2.pos ≠ splitEngine32.pos + 2 := by
  refine ⟨⟨by decide, by decide, fun i => by norm_num [splitEngine32]⟩, ?_, ?_⟩ <;> decide

/-- C9 amended: `split()` is deterministic in the pre-split state of the parent
(equal pre-split states yield equal child seeds and equal post-split
parents), and it advances the parent by exactly two full 64-bit gathers,
i.e. `2 * ceil(64 / w)` raw draws — which is exactly two draws precisely for
64-bit engines; narrower engines consume proportionally more draws. -/
theorem C9_split_frame (e : Engine) (hwf : e.wf) :
    (Random.splitSeed e).2 = ⟨e.w, e.draws, e.pos + 2 * ((64 + e.w - 1) / e.w)⟩ ∧
    (e.w = 64 → (Random.splitSeed e).2.pos = e.pos + 2) ∧
    (∀ f : Engine, f.w = e.w → f.draws = e.draws → f.pos = e.pos →
      Random.splitSeed f = Random.splitSeed e) := by
  obtain ⟨hw1, hw64, hdraw⟩ := hwf
  have hstate : (Random.splitSeed e).2 =
      ⟨e.w, e.draws, e.pos + 2 * ((64 + e.w - 1) / e.w)⟩ := by
    have h1 := bits_state 64 64 e hw1 (by norm_num)
    show (Random.bits 64 64 (Random.bits 64 64 e).2).2 = _
    rw [h1]
    have h2 := bits_state 64 64 ⟨e.w, e.draws, e.pos + (64 + e.w - 1) / e.w⟩ hw1 (by norm_num)
    rw [h2]
    show Engine.mk e.w e.draws (e.pos + (64 + e.w - 1) / e.w + (64 + e.w - 1) / e.w) = _
    congr 1
    ring
  refine ⟨hstate, ?_, ?_⟩
  · intro h64
    rw [hstate, h64]
  · intro f hfw hfd hfp
    obtain ⟨fw, fd, fp⟩ := f
    obtain ⟨ew, ed, ep⟩ := e
    simp only at hfw hfd hfp
    rw [hfw, hfd, hfp]

/-- Witness for C9 (amended) on the concrete 64-bit engine: the parent
advances by exactly two draws. -/
theorem C9_witness :
    Engine.wf engine64 ∧
    ((Random.splitSeed engine64).2 =
       ⟨engine64.w, engine64.draws, engine64.pos + 2 * ((64 + engine64.w - 1) / engine64.w)⟩ ∧
     (engine64.w = 64 → (Random.splitSeed engine64).2.pos = engine64.pos + 2) ∧
     (∀ f : Engine, f.w = engine64.w → f.draws = engine64.draws → f.pos = engine64.pos →
       Random.splitSeed f = Random.splitSeed engine64)) :=
  ⟨engine64_wf, C9_split_frame engine64 engine64_wf⟩

/-- C10: `coin_flip()` consumes exactly one raw draw (the engine advances the
same single step `next()` performs) and returns the least-significant bit of
that draw: it is `true` exactly when `next()` would be odd. -/
theorem C10_coin_flip (e : Engine) :
    ((Random.coin_flip e).1 = true ↔ (Random.next e).1 % 2 = 1) ∧
    (Random.coin_flip e).2 = (Random.next e).2 ∧
    (Random.next e).2 = e.step := by
  refine ⟨?_, rfl, rfl⟩
  show ((e.raw &&& 1) != 0) = true ↔ e.raw % 2 = 1
  rw [Nat.and_one_is_mod]
  rcases Nat.mod_two_eq_zero_or_one e.raw with h | h <;> rw [h] <;> simp

end rnd
